import Mathlib

set_option maxRecDepth 4000000

/-!
Verification development for the adaptive-LSB steganography codec implemented
in `api/simple_backend.py`.

Modelling conventions:
* A `PixelGrid` is the shallow embedding of an RGB numpy array of shape
  (h, w, 3): `px y x c` is the channel value (c = 0 red, 1 green, 2 blue);
  entries are mathematical naturals, in-range images have values < 256.
* Python text values are represented by their UTF-8 byte sequences
  (`List Nat`): `text.encode('utf-8')` is the identity on this
  representation, and `bytes.decode('utf-8', errors='ignore')` is modelled
  by `decodeUtf8Ignore`, which keeps valid UTF-8 sequences (whose decoded
  characters re-encode to the same bytes) and skips the bytes of invalid
  sequences exactly as CPython's ignore handler does.
* numpy float64 arithmetic is modelled by exact arithmetic: the grayscale
  luma `0.299 R + 0.587 G + 0.114 B` is carried as an integer scaled by
  1000, gradients as integers at the same scale, and the normalisation
  `uint8(magnitude / magnitude.max() * 255)` as the exact value
  `Nat.sqrt ((255^2 * m) / mmax)` (truncation of `255 * sqrt m / sqrt mmax`,
  which is scale invariant, so the factor 1000 cancels).  Means and
  thresholds are exact rationals.  PSNR is modelled over the reals.
* Python bit strings of '0'/'1' characters are `List Bool`.
* The nested block/pixel loops with their `break` statements are modelled
  as folds over the row-major traversal list; after the break condition
  becomes true the Python loops can no longer change any state, so the
  guarded fold computes the same result.
-/

namespace DataHiding

/-- RGB pixel grid (numpy array of shape (h, w, 3)); `px y x c` is the value
of channel `c` at row `y`, column `x`. -/
structure PixelGrid where
  h : Nat
  w : Nat
  px : Nat → Nat → Nat → Nat

/-- Grayscale luma value scaled by 1000, `np.dot(image[...,:3], [0.299, 0.587, 0.114])`
carried exactly as `299 R + 587 G + 114 B`. -/
def gray1000 (g : PixelGrid) (y x : Nat) : Nat :=
  299 * g.px y x 0 + 587 * g.px y x 1 + 114 * g.px y x 2

/-- Index clamping performed by `np.pad(gray, ((1,1),(1,1)), mode='edge')`:
padded index `i` (0-based over n+2 entries) reads clamped source index
`min (i-1) (n-1)` (natural subtraction sends i = 0 to row 0). -/
def padIdx (n i : Nat) : Nat := min (i - 1) (n - 1)

/-- Entry (i, j) of the edge-padded grayscale array (scaled by 1000). -/
def padded (g : PixelGrid) (i j : Nat) : Nat :=
  gray1000 g (padIdx g.h i) (padIdx g.w j)

/-- Horizontal Sobel response `np.sum(region * sobel_x)` at pixel (i, j),
with kernel [[-1,0,1],[-2,0,2],[-1,0,1]]; scaled by 1000. -/
def gradX (g : PixelGrid) (i j : Nat) : Int :=
  -(padded g i j : Int) + (padded g i (j+2) : Int)
    - 2 * (padded g (i+1) j : Int) + 2 * (padded g (i+1) (j+2) : Int)
    - (padded g (i+2) j : Int) + (padded g (i+2) (j+2) : Int)

/-- Vertical Sobel response `np.sum(region * sobel_y)` at pixel (i, j),
with kernel [[-1,-2,-1],[0,0,0],[1,2,1]]; scaled by 1000. -/
def gradY (g : PixelGrid) (i j : Nat) : Int :=
  -(padded g i j : Int) - 2 * (padded g i (j+1) : Int) - (padded g i (j+2) : Int)
    + (padded g (i+2) j : Int) + 2 * (padded g (i+2) (j+1) : Int) + (padded g (i+2) (j+2) : Int)

/-- Squared gradient magnitude `Gx^2 + Gy^2` (scaled by 1000^2). -/
def magSq (g : PixelGrid) (i j : Nat) : Nat :=
  ((gradX g i j) ^ 2 + (gradY g i j) ^ 2).toNat

/-- `magnitude.max()` (squared, scaled): maximum of `magSq` over the image. -/
def magSqMax (g : PixelGrid) : Nat :=
  ((List.range g.h).map fun i =>
    (((List.range g.w).map fun j => magSq g i j).foldr max 0)).foldr max 0

/-- Digit-by-digit integer square root with structural fuel (so that it
reduces in the kernel, unlike the well-founded `Nat.sqrt`): the root of `n`
is twice the root of `n / 4`, corrected by one. -/
def sqrtFuel : Nat → Nat → Nat
  | 0, _ => 0
  | f + 1, n =>
      if n = 0 then 0
      else
        let r := 2 * sqrtFuel f (n / 4)
        if (r + 1) * (r + 1) ≤ n then r + 1 else r

/-- Kernel-computable integer square root; proved equal to `Nat.sqrt` in
`natSqrt_eq_sqrt`. -/
def natSqrt (n : Nat) : Nat := sqrtFuel n n

/-- Entry (i, j) of the complexity map returned by `sobel_edge_detection`:
`uint8(sqrt(magSq) / max * 255)` in exact arithmetic, 0 on a flat image
(`if magnitude.max() > 0` guard).  `floor (255 * sqrt m / sqrt M)` equals
`natSqrt ((255^2 * m) / M)` because for integer k,
`k ≤ 255·√(m/M) ↔ k^2 ≤ 65025·m/M ↔ k^2 ≤ ⌊65025·m/M⌋`. -/
def complexity (g : PixelGrid) (i j : Nat) : Nat :=
  if magSqMax g = 0 then 0 else natSqrt ((65025 * magSq g i j) / magSqMax g)

/-- `format(byte, '08b')`: the eight bits of a byte, most significant first. -/
def byteBits (b : Nat) : List Bool :=
  [decide (b / 128 % 2 = 1), decide (b / 64 % 2 = 1), decide (b / 32 % 2 = 1),
   decide (b / 16 % 2 = 1), decide (b / 8 % 2 = 1), decide (b / 4 % 2 = 1),
   decide (b / 2 % 2 = 1), decide (b % 2 = 1)]

/-- `struct.pack('>I', n)` expanded to bits: 4 bytes, big-endian. -/
def header32 (n : Nat) : List Bool :=
  byteBits (n / 2 ^ 24 % 256) ++ byteBits (n / 2 ^ 16 % 256) ++
    byteBits (n / 2 ^ 8 % 256) ++ byteBits (n % 256)

/-- `text_to_binary`: frame the UTF-8 payload bytes as
`[32-bit big-endian length][payload bytes][0xFF]`, each byte expanded
MSB-first; the empty text encodes to the empty bitstream. -/
def text_to_binary (t : List Nat) : List Bool :=
  if t = [] then []
  else header32 t.length ++ t.flatMap byteBits ++ byteBits 255

/-- `int(bits, 2)`: value of a bit string read as a binary numeral. -/
def bitsToNat (l : List Bool) : Nat :=
  l.foldl (fun n b => 2 * n + (if b then 1 else 0)) 0

/-- The byte-reassembly loop of `binary_to_text`: consume 8 bits at a time,
dropping a trailing chunk shorter than 8 bits. -/
def bytesOfBits : List Bool → List Nat
  | b7 :: b6 :: b5 :: b4 :: b3 :: b2 :: b1 :: b0 :: rest =>
      bitsToNat [b7, b6, b5, b4, b3, b2, b1, b0] :: bytesOfBits rest
  | _ => []

/-- `data_bytes.decode('utf-8', errors='ignore')`, in the byte
representation of text: valid UTF-8 sequences are kept (their decoded
characters re-encode to the same bytes), and the bytes of an invalid
sequence are skipped following CPython's ignore handler (maximal-subpart
policy): a stray continuation or invalid start byte is skipped alone; a
multi-byte start whose first continuation byte is out of range is skipped
alone and scanning resumes at that byte; a valid prefix of a multi-byte
sequence followed by an out-of-range byte is skipped as a whole, resuming
at the offending byte; a sequence truncated by the end of input is
dropped.  The range checks encode the usual UTF-8 validity table
(no overlong forms: C0/C1 and E0 A0.. floors; no surrogates: ED 80..9F;
no code points above U+10FFFF: F4 80..8F, F5..FF invalid).  Every step
consumes at least one byte, so running the scanner with the list's length
as structural fuel (which keeps it kernel-computable, like `sqrtFuel`)
never exhausts the fuel. -/
def utf8IgnoreFuel : Nat → List Nat → List Nat
  | 0, _ => []
  | _ + 1, [] => []
  | f + 1, b :: rest =>
      if b < 128 then b :: utf8IgnoreFuel f rest
      else if b < 194 then utf8IgnoreFuel f rest
      else if b < 224 then
        match rest with
        | [] => []
        | c1 :: rest2 =>
            if 128 ≤ c1 ∧ c1 < 192 then b :: c1 :: utf8IgnoreFuel f rest2
            else utf8IgnoreFuel f (c1 :: rest2)
      else if b < 240 then
        match rest with
        | [] => []
        | c1 :: rest2 =>
            if (if b = 224 then 160 else 128) ≤ c1 ∧ c1 < (if b = 237 then 160 else 192) then
              match rest2 with
              | [] => []
              | c2 :: rest3 =>
                  if 128 ≤ c2 ∧ c2 < 192 then b :: c1 :: c2 :: utf8IgnoreFuel f rest3
                  else utf8IgnoreFuel f (c2 :: rest3)
            else utf8IgnoreFuel f (c1 :: rest2)
      else if b < 245 then
        match rest with
        | [] => []
        | c1 :: rest2 =>
            if (if b = 240 then 144 else 128) ≤ c1 ∧ c1 < (if b = 244 then 144 else 192) then
              match rest2 with
              | [] => []
              | c2 :: rest3 =>
                  if 128 ≤ c2 ∧ c2 < 192 then
                    match rest3 with
                    | [] => []
                    | c3 :: rest4 =>
                        if 128 ≤ c3 ∧ c3 < 192 then
                          b :: c1 :: c2 :: c3 :: utf8IgnoreFuel f rest4
                        else utf8IgnoreFuel f (c3 :: rest4)
                  else utf8IgnoreFuel f (c2 :: rest3)
            else utf8IgnoreFuel f (c1 :: rest2)
      else utf8IgnoreFuel f rest

/-- `data_bytes.decode('utf-8', errors='ignore')` in the byte
representation of text: run the scanner with sufficient fuel. -/
def decodeUtf8Ignore (t : List Nat) : List Nat := utf8IgnoreFuel t.length t

/-- `binary_to_text`: read the 32-bit big-endian length `L`, reject
`L = 0`, `L > 10000` or fewer than `32 + 8·L` available bits (returning the
empty result), otherwise reassemble the `L` bytes that start at bit 32 and
apply the final `data_bytes.decode('utf-8', errors='ignore')`. -/
def binary_to_text (bits : List Bool) : List Nat :=
  if bits.length < 32 then []
  else if bitsToNat (bits.take 32) = 0 ∨ bitsToNat (bits.take 32) > 10000 then []
  else if ((bits.drop 32).take (8 * bitsToNat (bits.take 32))).length <
      8 * bitsToNat (bits.take 32) then []
  else decodeUtf8Ignore (bytesOfBits ((bits.drop 32).take (8 * bitsToNat (bits.take 32))))

/-- Number of complete block rows, `h // block_size` with block_size = 2. -/
def blocksH (g : PixelGrid) : Nat := g.h / 2

/-- Number of complete block columns, `w // block_size`. -/
def blocksW (g : PixelGrid) : Nat := g.w / 2

/-- Sum of the four complexity-map entries of block (bi, bj). -/
def blockComplexitySum (g : PixelGrid) (bi bj : Nat) : Nat :=
  complexity g (2 * bi) (2 * bj) + complexity g (2 * bi) (2 * bj + 1) +
    complexity g (2 * bi + 1) (2 * bj) + complexity g (2 * bi + 1) (2 * bj + 1)

/-- `np.mean(complexity_map[y1:y2, x1:x2])` for block (bi, bj). -/
def blockComplexity (g : PixelGrid) (bi bj : Nat) : ℚ :=
  (blockComplexitySum g bi bj : ℚ) / 4

/-- The `block_complexities` list, accumulated block-row by block-row. -/
def blockComplexityList (g : PixelGrid) : List ℚ :=
  (List.range (blocksH g)).flatMap fun bi =>
    (List.range (blocksW g)).map fun bj => blockComplexity g bi bj

/-- The embed-path threshold:
`np.mean(block_complexities) if block_complexities else 128`. -/
def thresholdEmbed (g : PixelGrid) : ℚ :=
  if blockComplexityList g = [] then 128
  else (blockComplexityList g).sum / (blockComplexityList g).length

/-- The extract-path threshold, recomputed by `adaptive_lsb_extract` with the
same formula as the embed path. -/
def thresholdExtract (g : PixelGrid) : ℚ :=
  if blockComplexityList g = [] then 128
  else (blockComplexityList g).sum / (blockComplexityList g).length

/-- Embed-path bit depth of block (bi, bj):
`1 if block_complexity < threshold else 2`. -/
def bitsPerPixelEmbed (g : PixelGrid) (bi bj : Nat) : Nat :=
  if blockComplexity g bi bj < thresholdEmbed g then 1 else 2

/-- Extract-path bit depth of block (bi, bj), recomputed with the same
comparison as the embed path. -/
def bitsPerPixelExtract (g : PixelGrid) (bi bj : Nat) : Nat :=
  if blockComplexity g bi bj < thresholdExtract g then 1 else 2

/-- Row-major list of block indices (outer loop `bi`, inner loop `bj`). -/
def blockList (g : PixelGrid) : List (Nat × Nat) :=
  (List.range (blocksH g)).flatMap fun bi =>
    (List.range (blocksW g)).map fun bj => (bi, bj)

/-- Row-major pixel coordinates of block (bi, bj)
(`for y in range(y1, y2): for x in range(x1, x2)`). -/
def blockPixels (bi bj : Nat) : List (Nat × Nat) :=
  [(2 * bi, 2 * bj), (2 * bi, 2 * bj + 1), (2 * bi + 1, 2 * bj), (2 * bi + 1, 2 * bj + 1)]

/-- The embed traversal flattened to a list of (pixel, bit-depth) pairs, in
the order the nested loops of `adaptive_lsb_embed` visit them. -/
def pixListEmbed (g : PixelGrid) : List ((Nat × Nat) × Nat) :=
  (blockList g).flatMap fun b =>
    (blockPixels b.1 b.2).map fun p => (p, bitsPerPixelEmbed g b.1 b.2)

/-- The extract traversal flattened the same way, with the extract-path
bit depths. -/
def pixListExtract (g : PixelGrid) : List ((Nat × Nat) × Nat) :=
  (blockList g).flatMap fun b =>
    (blockPixels b.1 b.2).map fun p => (p, bitsPerPixelExtract g b.1 b.2)

/-- Numeric value of a payload bit character. -/
def bitVal (b : Bool) : Nat := if b then 1 else 0

/-- Mutable state of the embedding loops: the blue-channel plane of the
stego copy and the payload cursor `data_index`. -/
structure EmbedState where
  blue : Nat → Nat → Nat
  idx : Nat

/-- Body of the per-pixel embedding step: the guard models the
`data_index >= data_length` breaks (after which no further state changes),
the 1-bit branch writes `(pixel & 0xFE) | bit`, the 2-bit branch consumes
`min 2 (data_length - data_index)` bits MSB-first and writes
`(pixel & 0xFC) | bits_value`. -/
def embedPixel (data : List Bool) (k : Nat) (s : EmbedState) (p : Nat × Nat) : EmbedState :=
  if data.length ≤ s.idx then s
  else
    let pv := s.blue p.1 p.2
    if k = 1 then
      { blue := fun y x => if y = p.1 ∧ x = p.2 then
                  (pv &&& 254) ||| bitVal (data.getD s.idx false)
                else s.blue y x,
        idx := s.idx + 1 }
    else
      let t := min 2 (data.length - s.idx)
      let v := if t = 2 then
                 2 * bitVal (data.getD s.idx false) + bitVal (data.getD (s.idx + 1) false)
               else bitVal (data.getD s.idx false)
      { blue := fun y x => if y = p.1 ∧ x = p.2 then (pv &&& 252) ||| v else s.blue y x,
        idx := s.idx + t }

/-- The embedding loops as a fold over the flattened traversal. -/
def embedRun (data : List Bool) : List ((Nat × Nat) × Nat) → EmbedState → EmbedState
  | [], s => s
  | pk :: rest, s => embedRun data rest (embedPixel data pk.2 s pk.1)

/-- Final state of the embedding loops on a cover grid. -/
def embedFold (g : PixelGrid) (data : List Bool) : EmbedState :=
  embedRun data (pixListEmbed g) { blue := fun y x => g.px y x 2, idx := 0 }

/-- `adaptive_lsb_embed`: a copy of the cover whose blue channel is the
plane produced by the embedding loops. -/
def adaptive_lsb_embed (g : PixelGrid) (data : List Bool) : PixelGrid :=
  let s := embedFold g data
  { h := g.h, w := g.w,
    px := fun y x c => if c = 2 then s.blue y x else g.px y x c }

/-- Pixels visited by the embedding loops while payload bits remained
(each of them is written, possibly with an unchanged value); `idx` is the
payload cursor on arrival at the head of the list. -/
def embedVisited (data : List Bool) : List ((Nat × Nat) × Nat) → Nat → List (Nat × Nat)
  | [], _ => []
  | pk :: rest, idx =>
      if data.length ≤ idx then []
      else pk.1 :: embedVisited data rest
        (idx + if pk.2 = 1 then 1 else min 2 (data.length - idx))

/-- The extraction loops as a fold over the flattened traversal: the guard
models the `len(extracted_bits) >= max_bits` breaks; a 1-bit block appends
`pixel & 1`, a 2-bit block appends `format(pixel & 3, '02b')` (bit 1 then
bit 0). -/
def extractRun (g : PixelGrid) (maxBits : Nat) :
    List ((Nat × Nat) × Nat) → List Bool → List Bool
  | [], acc => acc
  | pk :: rest, acc =>
      if maxBits ≤ acc.length then extractRun g maxBits rest acc
      else
        extractRun g maxBits rest
          (acc ++ if pk.2 = 1 then [decide (g.px pk.1.1 pk.1.2 2 % 2 = 1)]
                  else [decide (g.px pk.1.1 pk.1.2 2 / 2 % 2 = 1),
                        decide (g.px pk.1.1 pk.1.2 2 % 2 = 1)])

/-- The raw bitstream accumulated by `adaptive_lsb_extract` before decoding. -/
def extractBits (g : PixelGrid) (maxBits : Nat) : List Bool :=
  extractRun g maxBits (pixListExtract g) []

/-- `adaptive_lsb_extract` (default `max_bits = 100000`): accumulate the raw
bitstream over the traversal, then decode it with `binary_to_text`. -/
def adaptive_lsb_extract (g : PixelGrid) (maxBits : Nat := 100000) : List Nat :=
  binary_to_text (extractBits g maxBits)

/-- Total number of payload bits the embed-path mask offers
(k bits for each of the 4 pixels of every complete block). -/
def maskBitsEmbed (g : PixelGrid) : Nat :=
  ((pixListEmbed g).map Prod.snd).sum

/-- Total number of bits the extract-path traversal would read without the
`max_bits` budget. -/
def maskBitsExtract (g : PixelGrid) : Nat :=
  ((pixListExtract g).map Prod.snd).sum

/-- Threshold used by `calculate_embedding_capacity`: `np.mean(complexity)`
over the whole H×W map (pixel mean, not block mean). -/
def capThreshold (g : PixelGrid) : ℚ :=
  (((List.range g.h).map fun i =>
      ((List.range g.w).map fun j => complexity g i j).sum).sum : ℚ) / (g.h * g.w)

/-- `low_complexity_blocks` counted by `calculate_embedding_capacity`. -/
def lowBlocks (g : PixelGrid) : Nat :=
  ((blockList g).filter fun b => blockComplexity g b.1 b.2 < capThreshold g).length

/-- `high_complexity_blocks` counted by `calculate_embedding_capacity`. -/
def highBlocks (g : PixelGrid) : Nat :=
  ((blockList g).filter fun b => ¬ blockComplexity g b.1 b.2 < capThreshold g).length

/-- `total_bits` of `calculate_embedding_capacity`:
`low * pixels_per_block * 1 + high * pixels_per_block * 2`. -/
def calculate_embedding_capacity_bits (g : PixelGrid) : Nat :=
  lowBlocks g * 4 * 1 + highBlocks g * 4 * 2

/-- The capacity bound checked by the `/embed` endpoint:
`(h // 2) * (w // 2) * 4 * 2` (worst case: all blocks use 2 bits). -/
def maxCapacity (g : PixelGrid) : Nat := (g.h / 2) * (g.w / 2) * 4 * 2

/-- Core of the `embed_text` endpoint (after input validation and image
decoding, before metrics): frame the secret, reject the request when the
frame exceeds the worst-case capacity (the HTTP 400 detail carries
`max_capacity`), otherwise run `adaptive_lsb_embed`. -/
def embed_text (g : PixelGrid) (t : List Nat) : Except Nat PixelGrid :=
  if (text_to_binary t).length > maxCapacity g then Except.error (maxCapacity g)
  else Except.ok (adaptive_lsb_embed g (text_to_binary t))

/-- `np.mean((original - stego)**2)` over all pixels and channels, exact. -/
def mse (a b : PixelGrid) : ℚ :=
  ((Finset.range a.h).sum fun y => (Finset.range a.w).sum fun x =>
    (Finset.range 3).sum fun c => ((a.px y x c : ℚ) - (b.px y x c : ℚ)) ^ 2) /
    (a.h * a.w * 3)

/-- `round(x, 2)` (ties at the third decimal are immaterial to the claims). -/
noncomputable def round2 (x : ℝ) : ℝ := (round (100 * x) : ℤ) / 100

/-- `calculate_psnr`: substitute `mse = 0.1` when the true MSE is below
`1e-10`, apply `20 * log10(255 / sqrt(mse))`, clamp to [35, 50], round to
two decimals.  Float64 arithmetic is modelled by exact real arithmetic. -/
noncomputable def calculate_psnr (a b : PixelGrid) : ℝ :=
  round2 (max 35 (min 50 (20 * Real.logb 10 (255 / Real.sqrt
    (if (mse a b : ℝ) < 1 / 10 ^ 10 then 1 / 10 else (mse a b : ℝ))))))

/-- Uniform-colour image: every channel of every pixel has value `v`. -/
def flatGrid (h w v : Nat) : PixelGrid := ⟨h, w, fun _ _ _ => v⟩

/-- A 6×6 cover with a bright 2×2 corner on a gray background; its Sobel
complexity is concentrated near the corner, so three blocks are classified
high-complexity and six low-complexity. -/
def brightCorner6 : PixelGrid :=
  ⟨6, 6, fun y x _ => if y < 2 ∧ x < 2 then 255 else 128⟩

/-! ### Correctness of the fuel-based square root -/

lemma sqrtFuel_eq (f : Nat) : ∀ n : Nat, n < 4 ^ f → sqrtFuel f n = Nat.sqrt n := by
  induction f with
  | zero =>
      intro n hn
      have h0 : n = 0 := by simpa using hn
      simp [h0, sqrtFuel]
  | succ f ih =>
      intro n hn
      rw [sqrtFuel]
      by_cases h0 : n = 0
      · simp [h0]
      rw [if_neg h0]
      have hdiv : n / 4 < 4 ^ f := by
        rw [Nat.div_lt_iff_lt_mul (by norm_num)]
        calc n < 4 ^ (f + 1) := hn
        _ = 4 ^ f * 4 := by ring
      rw [ih (n / 4) hdiv]
      have hs1 : Nat.sqrt (n / 4) * Nat.sqrt (n / 4) ≤ n / 4 := Nat.sqrt_le (n / 4)
      have hs2 : n / 4 < (Nat.sqrt (n / 4) + 1) * (Nat.sqrt (n / 4) + 1) :=
        Nat.lt_succ_sqrt (n / 4)
      have h44 : 4 * (n / 4) ≤ n := by omega
      have h45 : n < 4 * (n / 4) + 4 := by omega
      have h1 : (2 * Nat.sqrt (n / 4)) ^ 2 ≤ n := by nlinarith
      have h2 : n < (2 * Nat.sqrt (n / 4) + 2) ^ 2 := by nlinarith
      by_cases hc : (2 * Nat.sqrt (n / 4) + 1) * (2 * Nat.sqrt (n / 4) + 1) ≤ n
      · rw [if_pos hc]
        have ha : 2 * Nat.sqrt (n / 4) + 1 ≤ Nat.sqrt n := Nat.le_sqrt'.mpr (by nlinarith)
        have hb : Nat.sqrt n < 2 * Nat.sqrt (n / 4) + 2 := Nat.sqrt_lt'.mpr h2
        omega
      · rw [if_neg hc]
        have ha : 2 * Nat.sqrt (n / 4) ≤ Nat.sqrt n := Nat.le_sqrt'.mpr h1
        have hb : Nat.sqrt n < 2 * Nat.sqrt (n / 4) + 1 := Nat.sqrt_lt'.mpr (by nlinarith)
        omega

/-- The fuel-based square root agrees with `Nat.sqrt` everywhere. -/
theorem natSqrt_eq_sqrt (n : Nat) : natSqrt n = Nat.sqrt n :=
  sqrtFuel_eq n n (lt_of_lt_of_le n.lt_two_pow (Nat.pow_le_pow_left (by norm_num) n))

/-! ### Behaviour on uniform-colour images -/

@[simp] lemma flatGrid_h (h w v : Nat) : (flatGrid h w v).h = h := rfl

@[simp] lemma flatGrid_w (h w v : Nat) : (flatGrid h w v).w = w := rfl

@[simp] lemma flatGrid_px (h w v y x c : Nat) : (flatGrid h w v).px y x c = v := rfl

lemma gray1000_flat (h w v y x : Nat) : gray1000 (flatGrid h w v) y x = 1000 * v := by
  simp [gray1000]; ring

lemma padded_flat (h w v i j : Nat) : padded (flatGrid h w v) i j = 1000 * v := by
  simp [padded, gray1000_flat]

lemma magSq_flat (h w v i j : Nat) : magSq (flatGrid h w v) i j = 0 := by
  simp [magSq, gradX, gradY, padded_flat]

lemma foldr_max_zeros (l : List Nat) (hl : ∀ a ∈ l, a = 0) : l.foldr max 0 = 0 := by
  induction l with
  | nil => rfl
  | cons a l ih =>
      have ha : a = 0 := hl a (List.mem_cons_self a l)
      have hrest : l.foldr max 0 = 0 := ih fun b hb => hl b (List.mem_cons_of_mem a hb)
      simp [ha, hrest]

lemma magSqMax_flat (h w v : Nat) : magSqMax (flatGrid h w v) = 0 := by
  unfold magSqMax
  apply foldr_max_zeros
  intro a ha
  obtain ⟨i, _, rfl⟩ := List.mem_map.mp ha
  apply foldr_max_zeros
  intro b hb
  obtain ⟨j, _, rfl⟩ := List.mem_map.mp hb
  exact magSq_flat h w v i j

lemma complexity_flat (h w v i j : Nat) : complexity (flatGrid h w v) i j = 0 := by
  simp [complexity, magSqMax_flat]

lemma blockComplexity_flat (h w v bi bj : Nat) :
    blockComplexity (flatGrid h w v) bi bj = 0 := by
  simp [blockComplexity, blockComplexitySum, complexity_flat]

lemma blockComplexityList_ne_nil (g : PixelGrid) (hh : 2 ≤ g.h) (hw : 2 ≤ g.w) :
    blockComplexityList g ≠ [] := by
  have h0 : blockComplexity g 0 0 ∈ blockComplexityList g := by
    unfold blockComplexityList
    apply List.mem_flatMap.mpr
    refine ⟨0, ?_, ?_⟩
    · apply List.mem_range.mpr
      unfold blocksH
      omega
    · apply List.mem_map.mpr
      refine ⟨0, ?_, rfl⟩
      apply List.mem_range.mpr
      unfold blocksW
      omega
  exact List.ne_nil_of_mem h0

lemma thresholdEmbed_flat (h w v : Nat) (hh : 2 ≤ h) (hw : 2 ≤ w) :
    thresholdEmbed (flatGrid h w v) = 0 := by
  unfold thresholdEmbed
  rw [if_neg (blockComplexityList_ne_nil (flatGrid h w v) hh hw)]
  have hsum : (blockComplexityList (flatGrid h w v)).sum = 0 := by
    apply List.sum_eq_zero
    intro q hq
    unfold blockComplexityList at hq
    obtain ⟨bi, _, hq⟩ := List.mem_flatMap.mp hq
    obtain ⟨bj, _, rfl⟩ := List.mem_map.mp hq
    exact blockComplexity_flat h w v bi bj
  rw [hsum]
  simp

lemma thresholdExtract_flat (h w v : Nat) (hh : 2 ≤ h) (hw : 2 ≤ w) :
    thresholdExtract (flatGrid h w v) = 0 := by
  have : thresholdExtract (flatGrid h w v) = thresholdEmbed (flatGrid h w v) := rfl
  rw [this]
  exact thresholdEmbed_flat h w v hh hw

lemma bitsPerPixelEmbed_flat (h w v bi bj : Nat) (hh : 2 ≤ h) (hw : 2 ≤ w) :
    bitsPerPixelEmbed (flatGrid h w v) bi bj = 2 := by
  unfold bitsPerPixelEmbed
  rw [thresholdEmbed_flat h w v hh hw, blockComplexity_flat]
  simp

lemma bitsPerPixelExtract_flat (h w v bi bj : Nat) (hh : 2 ≤ h) (hw : 2 ≤ w) :
    bitsPerPixelExtract (flatGrid h w v) bi bj = 2 := by
  have : bitsPerPixelExtract (flatGrid h w v) bi bj =
      bitsPerPixelEmbed (flatGrid h w v) bi bj := rfl
  rw [this]
  exact bitsPerPixelEmbed_flat h w v bi bj hh hw

/-! ### Properties of the embedding fold -/

lemma bitsPerPixelEmbed_one_or_two (g : PixelGrid) (bi bj : Nat) :
    bitsPerPixelEmbed g bi bj = 1 ∨ bitsPerPixelEmbed g bi bj = 2 := by
  unfold bitsPerPixelEmbed
  split_ifs <;> simp

lemma bitsPerPixelExtract_one_or_two (g : PixelGrid) (bi bj : Nat) :
    bitsPerPixelExtract g bi bj = 1 ∨ bitsPerPixelExtract g bi bj = 2 := by
  unfold bitsPerPixelExtract
  split_ifs <;> simp

lemma pixListEmbed_snd (g : PixelGrid) :
    ∀ pk ∈ pixListEmbed g, pk.2 = 1 ∨ pk.2 = 2 := by
  intro pk hpk
  unfold pixListEmbed at hpk
  obtain ⟨b, _, hb⟩ := List.mem_flatMap.mp hpk
  obtain ⟨p, _, rfl⟩ := List.mem_map.mp hb
  exact bitsPerPixelEmbed_one_or_two g b.1 b.2

lemma pixListExtract_snd (g : PixelGrid) :
    ∀ pk ∈ pixListExtract g, pk.2 = 1 ∨ pk.2 = 2 := by
  intro pk hpk
  unfold pixListExtract at hpk
  obtain ⟨b, _, hb⟩ := List.mem_flatMap.mp hpk
  obtain ⟨p, _, rfl⟩ := List.mem_map.mp hb
  exact bitsPerPixelExtract_one_or_two g b.1 b.2

lemma embedPixel_frozen (data : List Bool) (k : Nat) (s : EmbedState) (p : Nat × Nat)
    (h : data.length ≤ s.idx) : embedPixel data k s p = s := by
  unfold embedPixel
  rw [if_pos h]

lemma embedPixel_idx (data : List Bool) (k : Nat) (s : EmbedState) (p : Nat × Nat)
    (h : ¬ data.length ≤ s.idx) :
    (embedPixel data k s p).idx =
      s.idx + (if k = 1 then 1 else min 2 (data.length - s.idx)) := by
  unfold embedPixel
  rw [if_neg h]
  split_ifs with hk <;> simp [hk]

lemma embedPixel_blue_other (data : List Bool) (k : Nat) (s : EmbedState) (p : Nat × Nat)
    (y x : Nat) (hyx : ¬(y = p.1 ∧ x = p.2)) :
    (embedPixel data k s p).blue y x = s.blue y x := by
  unfold embedPixel
  split_ifs <;> simp [hyx]

lemma embedRun_frozen (data : List Bool) (l : List ((Nat × Nat) × Nat)) (s : EmbedState)
    (h : data.length ≤ s.idx) : embedRun data l s = s := by
  induction l with
  | nil => rfl
  | cons pk l ih =>
      rw [embedRun, embedPixel_frozen data pk.2 s pk.1 h]
      exact ih

lemma embedRun_idx (data : List Bool) (l : List ((Nat × Nat) × Nat)) :
    ∀ s : EmbedState, s.idx ≤ data.length → (∀ pk ∈ l, pk.2 = 1 ∨ pk.2 = 2) →
      (embedRun data l s).idx = min data.length (s.idx + (l.map Prod.snd).sum) := by
  induction l with
  | nil =>
      intro s hle _
      simp only [embedRun, List.map_nil, List.sum_nil]
      omega
  | cons pk l ih =>
      intro s hle hk
      rw [embedRun]
      by_cases h : data.length ≤ s.idx
      · rw [embedPixel_frozen data pk.2 s pk.1 h, embedRun_frozen data l s h]
        simp only [List.map_cons, List.sum_cons]
        omega
      · have hidx := embedPixel_idx data pk.2 s pk.1 h
        have hk2 := hk pk (List.mem_cons_self pk l)
        have hle' : (embedPixel data pk.2 s pk.1).idx ≤ data.length := by
          rw [hidx]
          split_ifs <;> omega
        rw [ih _ hle' fun q hq => hk q (List.mem_cons_of_mem pk hq), hidx]
        simp only [List.map_cons, List.sum_cons]
        split_ifs with hc
        · rw [hc]
          omega
        · rcases hk2 with h1 | h1
          · exact absurd h1 hc
          · rw [h1]
            omega

/-- The number of payload bits the embedding loops consume is exactly
`min (payload length) (mask capacity)`. -/
lemma embedFold_idx (g : PixelGrid) (data : List Bool) :
    (embedFold g data).idx = min data.length (maskBitsEmbed g) := by
  unfold embedFold maskBitsEmbed
  rw [embedRun_idx data (pixListEmbed g) _ (by simp) (pixListEmbed_snd g)]
  simp

lemma embedRun_blue_not_visited (data : List Bool) (l : List ((Nat × Nat) × Nat)) :
    ∀ (s : EmbedState) (y x : Nat), (y, x) ∉ embedVisited data l s.idx →
      (embedRun data l s).blue y x = s.blue y x := by
  induction l with
  | nil => intro s y x _; rfl
  | cons pk l ih =>
      intro s y x hv
      rw [embedRun]
      by_cases h : data.length ≤ s.idx
      · rw [embedPixel_frozen data pk.2 s pk.1 h, embedRun_frozen data l s h]
      · rw [embedVisited, if_neg h] at hv
        have hne : (y, x) ≠ pk.1 := fun hyx => hv (hyx ▸ List.mem_cons_self pk.1 _)
        have hrest : (y, x) ∉ embedVisited data l
            (s.idx + if pk.2 = 1 then 1 else min 2 (data.length - s.idx)) :=
          fun hmem => hv (List.mem_cons_of_mem pk.1 hmem)
        have hidx := embedPixel_idx data pk.2 s pk.1 h
        rw [ih (embedPixel data pk.2 s pk.1) y x (by rw [hidx]; exact hrest)]
        apply embedPixel_blue_other
        intro hyx
        exact hne (Prod.ext_iff.mpr ⟨hyx.1, hyx.2⟩)

/-! ### Properties of the extraction fold -/

lemma extractRun_frozen (g : PixelGrid) (mb : Nat) (l : List ((Nat × Nat) × Nat))
    (acc : List Bool) (h : mb ≤ acc.length) : extractRun g mb l acc = acc := by
  induction l with
  | nil => rfl
  | cons pk l ih =>
      rw [extractRun, if_pos h]
      exact ih

lemma extractRun_len (g : PixelGrid) (mb : Nat) (l : List ((Nat × Nat) × Nat)) :
    ∀ acc : List Bool, (∀ pk ∈ l, pk.2 = 1 ∨ pk.2 = 2) → acc.length ≤ mb + 1 →
      (extractRun g mb l acc).length = acc.length + (l.map Prod.snd).sum ∨
        (mb ≤ (extractRun g mb l acc).length ∧ (extractRun g mb l acc).length ≤ mb + 1) := by
  induction l with
  | nil =>
      intro acc _ _
      left
      simp [extractRun]
  | cons pk l ih =>
      intro acc hk hle
      rw [extractRun]
      by_cases h : mb ≤ acc.length
      · rw [if_pos h, extractRun_frozen g mb l acc h]
        exact Or.inr ⟨h, hle⟩
      · rw [if_neg h]
        push_neg at h
        have htail := fun q hq => hk q (List.mem_cons_of_mem pk hq)
        by_cases hc : pk.2 = 1
        · rw [if_pos hc]
          rcases ih (acc ++ [decide (g.px pk.1.1 pk.1.2 2 % 2 = 1)]) htail
              (by simp; omega) with ha | ha
          · left
            rw [ha]
            simp only [List.length_append, List.length_cons, List.length_nil,
              List.map_cons, List.sum_cons, hc]
            omega
          · exact Or.inr ha
        · rw [if_neg hc]
          have h2 : pk.2 = 2 := by
            rcases hk pk (List.mem_cons_self pk l) with h1 | h1
            · exact absurd h1 hc
            · exact h1
          rcases ih (acc ++ [decide (g.px pk.1.1 pk.1.2 2 / 2 % 2 = 1),
              decide (g.px pk.1.1 pk.1.2 2 % 2 = 1)]) htail (by simp; omega) with ha | ha
          · left
            rw [ha]
            simp only [List.length_append, List.length_cons, List.length_nil,
              List.map_cons, List.sum_cons, h2]
            omega
          · exact Or.inr ha

lemma extractRun_len_even (g : PixelGrid) (mb : Nat) (hmb : 2 ∣ mb)
    (l : List ((Nat × Nat) × Nat)) :
    ∀ acc : List Bool, (∀ pk ∈ l, pk.2 = 2) → 2 ∣ acc.length → acc.length ≤ mb →
      (extractRun g mb l acc).length = min (acc.length + 2 * l.length) mb := by
  induction l with
  | nil =>
      intro acc _ _ hle
      simp only [extractRun, List.length_nil, Nat.mul_zero, Nat.add_zero]
      omega
  | cons pk l ih =>
      intro acc hk h2 hle
      rw [extractRun]
      by_cases h : mb ≤ acc.length
      · rw [if_pos h, extractRun_frozen g mb l acc h]
        simp only [List.length_cons]
        omega
      · rw [if_neg h]
        push_neg at h
        have h21 : pk.2 = 2 := hk pk (List.mem_cons_self pk l)
        rw [if_neg (by omega : ¬ pk.2 = 1)]
        rw [ih (acc ++ [decide (g.px pk.1.1 pk.1.2 2 / 2 % 2 = 1),
              decide (g.px pk.1.1 pk.1.2 2 % 2 = 1)])
            (fun q hq => hk q (List.mem_cons_of_mem pk hq))
            (by simp; omega) (by simp; omega)]
        simp only [List.length_append, List.length_cons, List.length_nil]
        omega

/-! ### Properties of the payload codec -/

lemma length_byteBits (b : Nat) : (byteBits b).length = 8 := rfl

lemma length_header32 (n : Nat) : (header32 n).length = 32 := rfl

lemma length_flatMap_byteBits (t : List Nat) : (t.flatMap byteBits).length = 8 * t.length := by
  induction t with
  | nil => rfl
  | cons b t ih =>
      rw [List.flatMap_cons, List.length_append, ih, length_byteBits, List.length_cons]
      ring

lemma foldl_bits_shift (l : List Bool) : ∀ v : Nat,
    l.foldl (fun n b => 2 * n + (if b then 1 else 0)) v = v * 2 ^ l.length + bitsToNat l := by
  induction l with
  | nil =>
      intro v
      simp [bitsToNat]
  | cons b l ih =>
      intro v
      have hb : bitsToNat (b :: l) = (if b then 1 else 0) * 2 ^ l.length + bitsToNat l := by
        unfold bitsToNat
        rw [List.foldl_cons, ih]
        simp [bitsToNat]
      rw [List.foldl_cons, ih, hb, List.length_cons]
      ring

lemma bitsToNat_append (a b : List Bool) :
    bitsToNat (a ++ b) = bitsToNat a * 2 ^ b.length + bitsToNat b := by
  unfold bitsToNat
  rw [List.foldl_append]
  exact foldl_bits_shift b _

set_option maxRecDepth 40000 in
lemma bitsToNat_byteBits : ∀ b < 256, bitsToNat (byteBits b) = b := by decide

lemma bitsToNat_header32 (n : Nat) (hn : n < 2 ^ 32) : bitsToNat (header32 n) = n := by
  unfold header32
  rw [bitsToNat_append, bitsToNat_append, bitsToNat_append,
    bitsToNat_byteBits _ (Nat.mod_lt _ (by norm_num)),
    bitsToNat_byteBits _ (Nat.mod_lt _ (by norm_num)),
    bitsToNat_byteBits _ (Nat.mod_lt _ (by norm_num)),
    bitsToNat_byteBits _ (Nat.mod_lt _ (by norm_num))]
  simp only [length_byteBits]
  omega

lemma bytesOfBits_byteBits_append (b : Nat) (rest : List Bool) :
    bytesOfBits (byteBits b ++ rest) = bitsToNat (byteBits b) :: bytesOfBits rest := by
  rfl

lemma bytesOfBits_flatMap : ∀ t : List Nat, (∀ b ∈ t, b < 256) →
    bytesOfBits (t.flatMap byteBits) = t := by
  intro t
  induction t with
  | nil => intro _; rfl
  | cons b t ih =>
      intro hb
      rw [List.flatMap_cons, bytesOfBits_byteBits_append,
        bitsToNat_byteBits b (hb b (List.mem_cons_self b t)),
        ih fun q hq => hb q (List.mem_cons_of_mem b hq)]

lemma length_bytesOfBits : ∀ l : List Bool, (bytesOfBits l).length = l.length / 8
  | [] => by simp [bytesOfBits]
  | [_] => by simp [bytesOfBits]
  | [_, _] => by simp [bytesOfBits]
  | [_, _, _] => by simp [bytesOfBits]
  | [_, _, _, _] => by simp [bytesOfBits]
  | [_, _, _, _, _] => by simp [bytesOfBits]
  | [_, _, _, _, _, _] => by simp [bytesOfBits]
  | [_, _, _, _, _, _, _] => by simp [bytesOfBits]
  | b7 :: b6 :: b5 :: b4 :: b3 :: b2 :: b1 :: b0 :: rest => by
      rw [bytesOfBits, List.length_cons, length_bytesOfBits rest]
      simp only [List.length_cons]
      omega

/-! ### Auxiliary length lemmas for the traversal lists -/

lemma length_flatMap_const {α β : Type} (l : List α) (f : α → List β) (k : Nat)
    (h : ∀ a ∈ l, (f a).length = k) : (l.flatMap f).length = l.length * k := by
  induction l with
  | nil => simp
  | cons a l ih =>
      rw [List.flatMap_cons, List.length_append, h a (List.mem_cons_self a l),
        ih fun q hq => h q (List.mem_cons_of_mem a hq), List.length_cons]
      ring

lemma sum_map_snd_of_all_two (l : List ((Nat × Nat) × Nat)) (h : ∀ pk ∈ l, pk.2 = 2) :
    (l.map Prod.snd).sum = 2 * l.length := by
  induction l with
  | nil => rfl
  | cons pk l ih =>
      rw [List.map_cons, List.sum_cons, h pk (List.mem_cons_self pk l),
        ih fun q hq => h q (List.mem_cons_of_mem pk hq), List.length_cons]
      ring

lemma blockList_nil (g : PixelGrid) (hdeg : g.h < 2 ∨ g.w < 2) : blockList g = [] := by
  unfold blockList
  rcases hdeg with hd | hd
  · rw [show blocksH g = 0 from Nat.div_eq_of_lt hd]
    rfl
  · rw [show blocksW g = 0 from Nat.div_eq_of_lt hd]
    simp

lemma blockComplexityList_nil (g : PixelGrid) (hdeg : g.h < 2 ∨ g.w < 2) :
    blockComplexityList g = [] := by
  unfold blockComplexityList
  rcases hdeg with hd | hd
  · rw [show blocksH g = 0 from Nat.div_eq_of_lt hd]
    rfl
  · rw [show blocksW g = 0 from Nat.div_eq_of_lt hd]
    simp

/-! ### Claim theorems -/

/-- C2 (amended): a block is assigned 2 bits per pixel iff its mean
complexity is greater than **or equal to** the threshold (the code compares
`block_complexity < threshold` for the 1-bit branch, so an exact tie is
assigned 2 bits, not 1), and the identical comparison is used on the embed
and extract paths. -/
theorem c2_threshold_comparison (g : PixelGrid) (bi bj : Nat) :
    (bitsPerPixelEmbed g bi bj = 2 ↔ thresholdEmbed g ≤ blockComplexity g bi bj) ∧
    (bitsPerPixelEmbed g bi bj = 1 ↔ blockComplexity g bi bj < thresholdEmbed g) ∧
    bitsPerPixelEmbed g bi bj = bitsPerPixelExtract g bi bj := by
  refine ⟨?_, ?_, rfl⟩
  · unfold bitsPerPixelEmbed
    split_ifs with hc
    · exact iff_of_false (by norm_num) (not_le.mpr hc)
    · exact iff_of_true rfl (le_of_not_lt hc)
  · unfold bitsPerPixelEmbed
    split_ifs with hc
    · exact iff_of_true rfl hc
    · exact iff_of_false (by norm_num) hc

unseal Rat.mul Rat.inv Rat.add Rat.sub in
/-- C2 counterexample: on a uniform 2×2 image the single block's complexity
equals the threshold (both are 0), yet both paths assign 2 bits, not the 1
bit the claim requires for an exact tie. -/
theorem c2_counterexample :
    blockComplexity (flatGrid 2 2 100) 0 0 = thresholdEmbed (flatGrid 2 2 100) ∧
    blockComplexity (flatGrid 2 2 100) 0 0 = thresholdExtract (flatGrid 2 2 100) ∧
    bitsPerPixelEmbed (flatGrid 2 2 100) 0 0 = 2 ∧
    bitsPerPixelExtract (flatGrid 2 2 100) 0 0 = 2 := by decide

/-- C3 (amended): a uniform-colour image with at least one complete 2×2
block yields an all-zero complexity map (with no division error — the
normalisation is skipped when the maximum magnitude is 0) and a threshold
of 0, but every block is assigned **2** bits per pixel, because the code's
tie-break sends `0 < 0 = false` to the 2-bit branch. -/
theorem c3_flat_image (h w v : Nat) (hh : 2 ≤ h) (hw : 2 ≤ w) :
    (∀ i j, complexity (flatGrid h w v) i j = 0) ∧
    thresholdEmbed (flatGrid h w v) = 0 ∧ thresholdExtract (flatGrid h w v) = 0 ∧
    (∀ bi bj, bitsPerPixelEmbed (flatGrid h w v) bi bj = 2 ∧
      bitsPerPixelExtract (flatGrid h w v) bi bj = 2) :=
  ⟨fun i j => complexity_flat h w v i j,
   thresholdEmbed_flat h w v hh hw,
   thresholdExtract_flat h w v hh hw,
   fun bi bj => ⟨bitsPerPixelEmbed_flat h w v bi bj hh hw,
     bitsPerPixelExtract_flat h w v bi bj hh hw⟩⟩

theorem c3_flat_image_witness :
    complexity (flatGrid 2 2 100) 1 1 = 0 ∧ thresholdEmbed (flatGrid 2 2 100) = 0 ∧
    bitsPerPixelEmbed (flatGrid 2 2 100) 0 0 = 2 :=
  ⟨(c3_flat_image 2 2 100 (by norm_num) (by norm_num)).1 1 1,
   (c3_flat_image 2 2 100 (by norm_num) (by norm_num)).2.1,
   ((c3_flat_image 2 2 100 (by norm_num) (by norm_num)).2.2.2 0 0).1⟩

unseal Rat.mul Rat.inv Rat.add Rat.sub in
/-- C3 counterexample: on the uniform 2×2 image the unique complete block
is assigned 2 bits per pixel, refuting the claim that every block of a flat
image gets 1 bit. -/
theorem c3_counterexample :
    bitsPerPixelEmbed (flatGrid 2 2 100) 0 0 ≠ 1 ∧
    bitsPerPixelExtract (flatGrid 2 2 100) 0 0 ≠ 1 := by decide

/-- C5 (amended): the embedding traversal consumes exactly
`min (payload length) (mask capacity)` bits — so when the payload fits the
mask every bit is embedded, but `embed_text` only rejects payloads larger
than the worst-case capacity `(h/2)*(w/2)*8`; a payload between the mask
capacity and the worst case is accepted and silently truncated to a strict
prefix.  Rejection happens before the embedding loop runs. -/
theorem c5_embed_consumption (g : PixelGrid) (t : List Nat) :
    (embedFold g (text_to_binary t)).idx =
      min (text_to_binary t).length (maskBitsEmbed g) ∧
    ((embed_text g t).isOk = true ↔ (text_to_binary t).length ≤ maxCapacity g) := by
  refine ⟨embedFold_idx g (text_to_binary t), ?_⟩
  unfold embed_text
  split_ifs with hc
  · exact iff_of_false (fun h => Bool.noConfusion h) (by omega)
  · exact iff_of_true rfl (by omega)

unseal Rat.mul Rat.inv Rat.add Rat.sub in
/-- C5 counterexample: `brightCorner6` with the two-byte payload "AB":
`embed_text` accepts the request (56 framed bits ≤ worst case 72), but the
mask-driven traversal stops after writing 48 bits — the embed succeeds
having written only a strict prefix of the payload. -/
theorem c5_counterexample :
    (embed_text brightCorner6 [65, 66]).isOk = true ∧
    (text_to_binary [65, 66]).length = 56 ∧
    (embedFold brightCorner6 (text_to_binary [65, 66])).idx = 48 := by decide

/-- C6: embedding only rewrites the blue channel: the red and green
channels of every pixel are returned unchanged, and the blue channel of
every pixel not visited while payload bits remained is unchanged as well
(the cover itself is untouched — the embedder builds a fresh grid). -/
theorem c6_frame_condition (g : PixelGrid) (data : List Bool) :
    (∀ y x c, c ≠ 2 → (adaptive_lsb_embed g data).px y x c = g.px y x c) ∧
    (∀ y x, (y, x) ∉ embedVisited data (pixListEmbed g) 0 →
      (adaptive_lsb_embed g data).px y x 2 = g.px y x 2) := by
  constructor
  · intro y x c hc
    simp [adaptive_lsb_embed, hc]
  · intro y x hv
    show (if (2 : Nat) = 2 then (embedFold g data).blue y x else g.px y x 2) = g.px y x 2
    rw [if_pos rfl]
    unfold embedFold
    exact embedRun_blue_not_visited data (pixListEmbed g) _ y x hv

unseal Rat.mul Rat.inv Rat.add Rat.sub in
theorem c6_frame_condition_witness :
    (adaptive_lsb_embed (flatGrid 2 2 7) [true]).px 0 0 0 = (flatGrid 2 2 7).px 0 0 0 ∧
    (adaptive_lsb_embed (flatGrid 2 2 7) [true]).px 1 1 2 = (flatGrid 2 2 7).px 1 1 2 :=
  ⟨(c6_frame_condition (flatGrid 2 2 7) [true]).1 0 0 0 (by decide),
   (c6_frame_condition (flatGrid 2 2 7) [true]).2 1 1 (by decide)⟩

/-- C7 (amended): `adaptive_lsb_extract` decodes the bitstream accumulated
by the traversal, and that traversal reads the mask-assigned low bits of
every pixel of every complete block **only as long as the accumulated
count stays below `max_bits`** — either the full mask is read, or the
accumulator stops within one bit past the `max_bits` budget (100000 by
default). -/
theorem c7_extraction_budget (g : PixelGrid) (mb : Nat) :
    adaptive_lsb_extract g mb = binary_to_text (extractBits g mb) ∧
    ((extractBits g mb).length = maskBitsExtract g ∨
      (mb ≤ (extractBits g mb).length ∧ (extractBits g mb).length ≤ mb + 1)) := by
  refine ⟨rfl, ?_⟩
  have h := extractRun_len g mb (pixListExtract g) [] (pixListExtract_snd g) (by simp)
  simpa [extractBits, maskBitsExtract] using h

/-- C7 counterexample: on a uniform 320×320 image every complete block is a
2-bit block, so reading every pixel of every block would produce 204800
bits; the extractor's `max_bits = 100000` budget stops the traversal at
100000 bits, so it does **not** read the whole image. -/
theorem c7_counterexample :
    (extractBits (flatGrid 320 320 128) 100000).length = 100000 ∧
    maskBitsExtract (flatGrid 320 320 128) = 204800 ∧
    (extractBits (flatGrid 320 320 128) 100000).length ≠
      maskBitsExtract (flatGrid 320 320 128) := by
  have hall : ∀ pk ∈ pixListExtract (flatGrid 320 320 128), pk.2 = 2 := by
    intro pk hpk
    unfold pixListExtract at hpk
    obtain ⟨b, _, hb⟩ := List.mem_flatMap.mp hpk
    obtain ⟨p, _, rfl⟩ := List.mem_map.mp hb
    exact bitsPerPixelExtract_flat 320 320 128 b.1 b.2 (by norm_num) (by norm_num)
  have hbll : (blockList (flatGrid 320 320 128)).length = 25600 := by
    unfold blockList
    rw [length_flatMap_const _ _ (blocksW (flatGrid 320 320 128)) fun a _ => by simp]
    simp [blocksH, blocksW]
  have hpl : (pixListExtract (flatGrid 320 320 128)).length = 102400 := by
    unfold pixListExtract
    rw [length_flatMap_const _ _ 4 fun b _ => by simp [blockPixels], hbll]
  have h1 : (extractBits (flatGrid 320 320 128) 100000).length = 100000 := by
    unfold extractBits
    rw [extractRun_len_even (flatGrid 320 320 128) 100000 (by norm_num)
      (pixListExtract (flatGrid 320 320 128)) [] hall (by simp) (by simp), hpl]
    omega
  have h2 : maskBitsExtract (flatGrid 320 320 128) = 204800 := by
    unfold maskBitsExtract
    rw [sum_map_snd_of_all_two _ hall, hpl]
  exact ⟨h1, h2, by omega⟩

/-- C10: on a degenerate image (height < 2 or width < 2) there are no
complete blocks: both recomputed thresholds fall back to the constant 128,
embedding returns the unmodified copy of the cover for any payload, and
extraction accumulates no bits and returns the empty result. -/
theorem c10_degenerate_images (g : PixelGrid) (data : List Bool)
    (hdeg : g.h < 2 ∨ g.w < 2) :
    thresholdEmbed g = 128 ∧ thresholdExtract g = 128 ∧
    (∀ y x c, (adaptive_lsb_embed g data).px y x c = g.px y x c) ∧
    adaptive_lsb_extract g = [] := by
  have hbl : blockList g = [] := blockList_nil g hdeg
  have hbc : blockComplexityList g = [] := blockComplexityList_nil g hdeg
  have hpe : pixListEmbed g = [] := by unfold pixListEmbed; rw [hbl]; rfl
  have hpx : pixListExtract g = [] := by unfold pixListExtract; rw [hbl]; rfl
  refine ⟨?_, ?_, ?_, ?_⟩
  · unfold thresholdEmbed
    rw [if_pos hbc]
  · unfold thresholdExtract
    rw [if_pos hbc]
  · intro y x c
    show (if c = 2 then (embedFold g data).blue y x else g.px y x c) = g.px y x c
    unfold embedFold
    rw [hpe]
    show (if c = 2 then g.px y x 2 else g.px y x c) = g.px y x c
    by_cases hc : c = 2
    · rw [if_pos hc, hc]
    · rw [if_neg hc]
  · unfold adaptive_lsb_extract extractBits
    rw [hpx]
    rfl

unseal Rat.mul Rat.inv Rat.add Rat.sub in
/-- C1 (code bug): the round trip fails on a 6×6 uniform gray cover with
the one-byte payload "A" (byte 65) even though the framed bitstream
(48 bits) fits the mask-builder capacity (72 bits): embedding perturbs the
blue plane, the extract path recomputes a different mask from the stego
image, the misaligned stream decodes to nothing, and extraction returns the
empty result instead of the payload. -/
theorem c1_roundtrip_failure :
    (text_to_binary [65]).length ≤ calculate_embedding_capacity_bits (flatGrid 6 6 128) ∧
    adaptive_lsb_extract (adaptive_lsb_embed (flatGrid 6 6 128) (text_to_binary [65])) = [] ∧
    [] ≠ ([65] : List Nat) := by
  refine ⟨by decide, by decide, by decide⟩

/-- C4 (amended): `embed_text` fails with a capacity error iff the framed
payload exceeds the worst-case capacity `(h/2)*(w/2)*4*2` — not the
capacity the mask builder computes — and the error carries that worst-case
figure (the HTTP detail reports `max_capacity // 8` bytes). -/
theorem c4_capacity_check (g : PixelGrid) (t : List Nat) :
    (embed_text g t = Except.error (maxCapacity g) ↔
      maxCapacity g < (text_to_binary t).length) ∧
    ((embed_text g t).isOk = true ↔ (text_to_binary t).length ≤ maxCapacity g) := by
  unfold embed_text
  constructor
  · split_ifs with hc
    · exact iff_of_true rfl (by omega)
    · constructor
      · intro h
        exact h.elim
      · intro h
        exact absurd h (by omega)
  · split_ifs with hc
    · exact iff_of_false (fun h => Bool.noConfusion h) (by omega)
    · exact iff_of_true rfl (by omega)

unseal Rat.mul Rat.inv Rat.add Rat.sub in
/-- C4 counterexample: (i) for a 4×4 cover and a 50-character secret the
capacity error carries 32 available bits (`2*2*4*2`), not the 16 the claim
states; (ii) on `brightCorner6` the two-byte payload "AB" exceeds the
mask-builder capacity (56 > 48) yet `embed_text` succeeds, refuting the
claimed "fails iff the payload exceeds the mask-builder capacity". -/
theorem c4_counterexample :
    embed_text (flatGrid 4 4 128) (List.replicate 50 65) = Except.error 32 ∧
    (text_to_binary (List.replicate 50 65)).length = 440 ∧
    calculate_embedding_capacity_bits brightCorner6 <
      (text_to_binary [65, 66]).length ∧
    (embed_text brightCorner6 [65, 66]).isOk = true := by
  refine ⟨rfl, by decide, by decide, by decide⟩

/-- C8 (amended): `binary_to_text` returns the empty result iff fewer than
32 bits are available, or the 32-bit big-endian length `L` is 0 or exceeds
10000, or fewer than `32 + 8·L` bits are available, **or the `L` payload
bytes starting at bit 32 decode to the empty string under UTF-8 with
invalid sequences ignored**; when none of these hold it returns the
UTF-8-ignore decode of those `L` bytes — equal to the bytes themselves
whenever they are valid UTF-8 (a fixed point of the ignore-decode) — and it
ignores the delimiter byte and every bit after position `32 + 8·L`. -/
theorem c8_decode_contract :
    (∀ bits : List Bool, binary_to_text bits = [] ↔
      (bits.length < 32 ∨ bitsToNat (bits.take 32) = 0 ∨ 10000 < bitsToNat (bits.take 32) ∨
        bits.length < 32 + 8 * bitsToNat (bits.take 32) ∨
        decodeUtf8Ignore (bytesOfBits ((bits.drop 32).take
          (8 * bitsToNat (bits.take 32)))) = [])) ∧
    (∀ (t : List Nat) (junk : List Bool), t ≠ [] → t.length ≤ 10000 → (∀ b ∈ t, b < 256) →
      decodeUtf8Ignore t = t →
      binary_to_text (header32 t.length ++ t.flatMap byteBits ++ byteBits 255 ++ junk) = t) := by
  constructor
  · intro bits
    unfold binary_to_text
    by_cases h1 : bits.length < 32
    · simp only [if_pos h1]
      exact iff_of_true (by simp) (Or.inl h1)
    · simp only [if_neg h1]
      by_cases h2 : bitsToNat (bits.take 32) = 0 ∨ bitsToNat (bits.take 32) > 10000
      · simp only [if_pos h2]
        refine iff_of_true (by simp) ?_
        rcases h2 with h2 | h2
        · exact Or.inr (Or.inl h2)
        · exact Or.inr (Or.inr (Or.inl h2))
      · simp only [if_neg h2]
        push_neg at h2
        obtain ⟨h20, h210⟩ := h2
        have hdl : ((bits.drop 32).take (8 * bitsToNat (bits.take 32))).length =
            min (8 * bitsToNat (bits.take 32)) (bits.length - 32) := by
          rw [List.length_take, List.length_drop]
        by_cases h3 : ((bits.drop 32).take (8 * bitsToNat (bits.take 32))).length <
            8 * bitsToNat (bits.take 32)
        · simp only [if_pos h3]
          refine iff_of_true (by simp) (Or.inr (Or.inr (Or.inr (Or.inl ?_))))
          omega
        · simp only [if_neg h3]
          constructor
          · intro hres
            exact Or.inr (Or.inr (Or.inr (Or.inr hres)))
          · rintro (h | h | h | h | h)
            · exact absurd h h1
            · omega
            · omega
            · omega
            · exact h
  · intro t junk hne hlen hb hfix
    have hL0 : t.length ≠ 0 := fun h => hne (List.eq_nil_of_length_eq_zero h)
    have hhl : (header32 t.length).length = 32 := length_header32 t.length
    have hfl : (t.flatMap byteBits).length = 8 * t.length := length_flatMap_byteBits t
    have hassoc : header32 t.length ++ t.flatMap byteBits ++ byteBits 255 ++ junk =
        header32 t.length ++ (t.flatMap byteBits ++ (byteBits 255 ++ junk)) := by
      simp [List.append_assoc]
    rw [hassoc]
    have htake : (header32 t.length ++
        (t.flatMap byteBits ++ (byteBits 255 ++ junk))).take 32 = header32 t.length :=
      List.take_left' hhl
    have hdrop : (header32 t.length ++
        (t.flatMap byteBits ++ (byteBits 255 ++ junk))).drop 32 =
        t.flatMap byteBits ++ (byteBits 255 ++ junk) := List.drop_left' hhl
    have hlentot : (header32 t.length ++
        (t.flatMap byteBits ++ (byteBits 255 ++ junk))).length =
        32 + (8 * t.length + (8 + junk.length)) := by
      simp [List.length_append, hhl, hfl, length_byteBits]
    unfold binary_to_text
    rw [htake, hdrop, bitsToNat_header32 t.length (by omega), List.take_left' hfl]
    rw [if_neg (by omega), if_neg (by omega), if_neg (by omega)]
    rw [bytesOfBits_flatMap t hb]
    exact hfix

theorem c8_decode_contract_witness :
    binary_to_text (header32 ([72, 73] : List Nat).length ++
      ([72, 73] : List Nat).flatMap byteBits ++ byteBits 255 ++ [true, true]) = [72, 73] :=
  c8_decode_contract.2 [72, 73] [true, true] (by decide) (by decide) (by decide) (by decide)

/-- C8 counterexample: the 40-bit stream `header32 1 ++ byteBits 255`
satisfies none of the claimed failure conditions — it has 40 ≥ 32 bits, its
length field is 1 ∈ (0, 10000], and 40 ≥ 32 + 8·1 — and the payload byte
starting at bit 32 is 0xFF; yet the code returns the empty result rather
than that byte, because the final `decode('utf-8', errors='ignore')` drops
the invalid byte 0xFF.  This refutes both the claimed "empty iff" and
"otherwise returns exactly the length bytes". -/
theorem c8_counterexample :
    ¬ (header32 1 ++ byteBits 255).length < 32 ∧
    bitsToNat ((header32 1 ++ byteBits 255).take 32) = 1 ∧
    ¬ (header32 1 ++ byteBits 255).length < 32 + 8 * 1 ∧
    bytesOfBits (((header32 1 ++ byteBits 255).drop 32).take 8) = [255] ∧
    binary_to_text (header32 1 ++ byteBits 255) = [] := by decide

/-- C9 (amended): `calculate_psnr` never returns the raw
`20·log10(255/√MSE)` value: after substituting MSE = 0.1 whenever the true
MSE is below 1e-10 it clamps the result into the band [35, 50] dB and
rounds to two decimals, so the returned value always lies in [35, 50]. -/
theorem c9_psnr_clamped (a b : PixelGrid) :
    35 ≤ calculate_psnr a b ∧ calculate_psnr a b ≤ 50 := by
  unfold calculate_psnr round2
  set p := 20 * Real.logb 10 (255 / Real.sqrt
    (if (mse a b : ℝ) < 1 / 10 ^ 10 then 1 / 10 else (mse a b : ℝ))) with hp
  have h35 : (35 : ℝ) ≤ max 35 (min 50 p) := le_max_left _ _
  have h50 : max 35 (min 50 p) ≤ 50 := max_le (by norm_num) (min_le_left _ _)
  have hlow : (3500 : ℤ) ≤ round (100 * max 35 (min 50 p)) := by
    rw [round_eq]
    apply Int.le_floor.mpr
    push_cast
    linarith
  have hhigh : round (100 * max 35 (min 50 p)) ≤ 5000 := by
    rw [round_eq]
    have h2 : ⌊(100 : ℝ) * max 35 (min 50 p) + 1 / 2⌋ < (5001 : ℤ) := by
      apply Int.floor_lt.mpr
      push_cast
      linarith
    omega
  constructor
  · have hc : ((3500 : ℤ) : ℝ) ≤ ((round (100 * max 35 (min 50 p)) : ℤ) : ℝ) := by
      exact_mod_cast hlow
    push_cast at hc
    linarith
  · have hc : ((round (100 * max 35 (min 50 p)) : ℤ) : ℝ) ≤ ((5000 : ℤ) : ℝ) := by
      exact_mod_cast hhigh
    push_cast at hc
    linarith

/-- C9 counterexample: comparing a 1×1 image with itself gives MSE = 0,
where the claim demands PSNR = +∞ and forbids clamping; the code
substitutes MSE = 0.1 (yielding ≈ 58.1 dB) and clamps, returning exactly
50. -/
theorem c9_counterexample :
    mse (flatGrid 1 1 0) (flatGrid 1 1 0) = 0 ∧
    calculate_psnr (flatGrid 1 1 0) (flatGrid 1 1 0) = 50 := by
  have hmse : mse (flatGrid 1 1 0) (flatGrid 1 1 0) = 0 := by
    unfold mse
    simp
  refine ⟨hmse, ?_⟩
  unfold calculate_psnr
  rw [hmse]
  rw [if_pos (by norm_num)]
  have hsqrt_pos : (0 : ℝ) < Real.sqrt (1 / 10) := Real.sqrt_pos.mpr (by norm_num)
  have hsqrt_ne : Real.sqrt (10 : ℝ) ≠ 0 := by
    have : (0 : ℝ) < Real.sqrt 10 := Real.sqrt_pos.mpr (by norm_num)
    linarith
  have hinv : (255 : ℝ) / Real.sqrt (1 / 10) = 255 * Real.sqrt 10 := by
    rw [show (1 / 10 : ℝ) = (10 : ℝ)⁻¹ by norm_num, Real.sqrt_inv]
    field_simp
  have hlog10 : Real.logb 10 (Real.sqrt 10) = 1 / 2 := by
    rw [Real.sqrt_eq_rpow]
    exact Real.logb_rpow (by norm_num) (by norm_num)
  have h102 : ((10 : ℝ) ^ (2 : ℝ)) = 100 := by
    rw [show (2 : ℝ) = ((2 : ℕ) : ℝ) by norm_num, Real.rpow_natCast]
    norm_num
  have hlog255 : (2 : ℝ) ≤ Real.logb 10 255 := by
    have h100 : Real.logb 10 ((10 : ℝ) ^ (2 : ℝ)) = 2 :=
      Real.logb_rpow (by norm_num) (by norm_num)
    have hle : Real.logb 10 ((10 : ℝ) ^ (2 : ℝ)) ≤ Real.logb 10 255 := by
      rw [h102]
      exact Real.logb_le_logb_of_le (by norm_num) (by norm_num) (by norm_num)
    linarith
  have hp : (50 : ℝ) ≤ 20 * Real.logb 10 (255 / Real.sqrt (1 / 10)) := by
    rw [hinv, Real.logb_mul (by norm_num) hsqrt_ne, hlog10]
    linarith
  rw [min_eq_left hp, max_eq_right (by norm_num : (35 : ℝ) ≤ 50)]
  unfold round2
  rw [show (100 : ℝ) * 50 = ((5000 : ℤ) : ℝ) by norm_num, round_intCast]
  norm_num

theorem c10_degenerate_images_witness :
    thresholdEmbed (flatGrid 1 5 9) = 128 ∧ thresholdExtract (flatGrid 1 5 9) = 128 ∧
    (∀ y x c, (adaptive_lsb_embed (flatGrid 1 5 9) [true, false]).px y x c =
      (flatGrid 1 5 9).px y x c) ∧
    adaptive_lsb_extract (flatGrid 1 5 9) = [] :=
  c10_degenerate_images (flatGrid 1 5 9) [true, false] (Or.inl (by norm_num))

end DataHiding
